import Mathlib

/-!
Verification of the graph derivation and comparison engine of the
Deadlock-Prevention browser tool.

The embedded functions are shallow translations of the JavaScript source:
* `GraphVisualization.buildRAGGraph`, `GraphVisualization.buildWFGGraph`
  and the mouseover neighborhood loop of `renderGraph`
  (static/js graph visualization file);
* `DeadlockApp.buildWFGFromSnapshot`, `DeadlockApp.saveSnapshot` and
  `DeadlockApp.displayDifferences` (static/js/app.js).

JavaScript semantics made explicit in the model:
* `key.split('_')` splits on every underscore character; the destructuring
  `const [pidStr, rid] = key.split('_')` keeps the first two fragments only
  and `rid` is `undefined` when the key holds no underscore.
* `parseInt` consumes an optional sign followed by leading decimal digits
  and yields NaN when no digit is present; NaN is modelled as `none`.
* a JS `Set` keeps insertion order and deduplicates (NaN equal to NaN),
  modelled as a duplicate-free list built by `jsSetAdd`.
Numbers appearing as pids/counts are modelled as `Int` (the data contract
uses integers throughout); a possibly-NaN number is `Option Int`.
-/

namespace Deadlock

/-- JS `str.split('_')` on the character list: splits on every `'_'`;
the empty string yields `[""]`, like JS. -/
def splitChars : List Char → List (List Char)
  | [] => [[]]
  | c :: cs =>
    let rest := splitChars cs
    if c = '_' then [] :: rest
    else
      match rest with
      | [] => [[c]]
      | r :: rs => (c :: r) :: rs

/-- JS `key.split('_')` as a list of strings. -/
def jsSplit (s : String) : List String :=
  (splitChars s.toList).map (fun cs => String.mk cs)

/-- JS destructuring `const [pidStr, rid] = key.split('_')`:
the first fragment, and the second fragment when present
(`none` models `undefined`). -/
def splitKey (key : String) : String × Option String :=
  match jsSplit key with
  | [] => ("", none)
  | [a] => (a, none)
  | a :: b :: _ => (a, some b)

/-- Leading decimal digits of a character list, `none` when there is no
leading digit (the NaN case of `parseInt`). -/
def parseDigits (cs : List Char) : Option Nat :=
  let ds := cs.takeWhile Char.isDigit
  if ds = [] then none
  else some (ds.foldl (fun acc c => 10 * acc + (c.toNat - 48)) 0)

/-- JS `parseInt(s)` restricted to the decimal forms that occur in this
application: optional whitespace, optional sign, leading decimal digits;
`none` models NaN.  (The hexadecimal `0x` prefix autodetection of full JS
`parseInt` is not modelled; no composite key in this tool starts with
`0x`.) -/
def parseIntJS (s : String) : Option Int :=
  let cs := s.toList.dropWhile (fun c => c = ' ')
  match cs with
  | '-' :: rest => (parseDigits rest).map (fun n => -(n : Int))
  | '+' :: rest => (parseDigits rest).map (fun n => (n : Int))
  | rest => (parseDigits rest).map (fun n => (n : Int))

/-- Rendering of a `string | undefined` value inside a JS template
literal: `undefined` prints as `"undefined"`. -/
def jsStr : Option String → String
  | none => "undefined"
  | some s => s

/-- Little-endian decimal digit rendering of a natural number, with
explicit fuel (the fuel makes the definition structurally recursive, so
it evaluates inside the kernel). -/
def natAux : Nat → Nat → List Char
  | 0, _ => []
  | fuel + 1, n =>
    if n < 10 then [Nat.digitChar n]
    else Nat.digitChar (n % 10) :: natAux fuel (n / 10)

/-- Decimal rendering of a natural number, as a JS template literal
renders it. -/
def natStr (n : Nat) : String := String.mk (natAux (n + 1) n).reverse

/-- Decimal rendering of an integer, as a JS template literal renders
it (a leading `-` for negative values). -/
def intStr : Int → String
  | Int.ofNat n => natStr n
  | Int.negSucc n => "-" ++ natStr (n + 1)

/-- Rendering of a possibly-NaN number inside a JS template literal. -/
def jsNumStr : Option Int → String
  | none => "NaN"
  | some n => intStr n

/-- JS `a !== b` on two possibly-NaN numbers: NaN is `!==` to everything,
NaN included. -/
def jsNeq : Option Int → Option Int → Bool
  | some x, some y => x ≠ y
  | _, _ => true

/-- JS `Set.prototype.add`: insertion-ordered, duplicate-free. -/
def jsSetAdd {α : Type} [DecidableEq α] (l : List α) (x : α) : List α :=
  if x ∈ l then l else l ++ [x]

/-- Snapshot: the canonical system description.  `processes` is the list
of pid fields of the process entries; `resources`, `allocation` and
`request` are the `Object.entries` association lists, in iteration
order.  (Opaque pass-through fields are not modelled; no claim below
depends on them.) -/
structure Snapshot where
  processes : List Int
  resources : List (String × Int)
  allocation : List (String × Int)
  request : List (String × Int)

inductive NodeType where
  | process
  | resource
  deriving DecidableEq, Repr

inductive EdgeType where
  | allocation
  | request
  | waitFor
  deriving DecidableEq, Repr

structure Node where
  id : String
  type : NodeType
  pid : Option Int := none
  rid : Option String := none
  total : Option Int := none
  inCycle : Bool := false
  deriving DecidableEq, Repr

structure Link where
  source : String
  target : String
  type : EdgeType
  weight : Option Int := none
  id : String
  deriving DecidableEq, Repr

structure Graph where
  nodes : List Node
  links : List Link
  deriving DecidableEq, Repr

/-- `GraphVisualization.buildRAGGraph(snapshot)`: one process node per
process entry, one resource node per resource entry, an allocation edge
`P{pid} -> R{rid}` per positive allocation key, a request edge
`R{rid} -> P{pid}` per positive request key. -/
def buildRAGGraph (s : Snapshot) : Graph :=
  let processNodes := s.processes.map (fun pid =>
    { id := "P" ++ intStr pid, type := NodeType.process, pid := some pid : Node })
  let resourceNodes := s.resources.map (fun e =>
    { id := "R" ++ e.1, type := NodeType.resource, rid := some e.1,
      total := some e.2 : Node })
  let allocLinks := s.allocation.filterMap (fun e =>
    if e.2 > 0 then
      let pr := splitKey e.1
      some { source := "P" ++ pr.1, target := "R" ++ jsStr pr.2,
             type := EdgeType.allocation, weight := some e.2,
             id := "alloc_" ++ e.1 : Link }
    else none)
  let reqLinks := s.request.filterMap (fun e =>
    if e.2 > 0 then
      let pr := splitKey e.1
      some { source := "R" ++ jsStr pr.2, target := "P" ++ pr.1,
             type := EdgeType.request, weight := some e.2,
             id := "req_" ++ e.1 : Link }
    else none)
  { nodes := processNodes ++ resourceNodes, links := allocLinks ++ reqLinks }

/-- The `cycleNodes` set of `buildWFGGraph`: all pids over all cycles,
in insertion order. -/
def cycleNodesOf (cycles : List (List Int)) : List Int :=
  cycles.foldl (fun acc c => c.foldl jsSetAdd acc) []

/-- The `allPids` set of `buildWFGGraph`: for every adjacency entry, the
parsed key followed by the entry's targets. -/
def allPidsOf (wfg : List (String × List (Option Int))) : List (Option Int) :=
  wfg.foldl (fun acc e => e.2.foldl jsSetAdd (jsSetAdd acc (parseIntJS e.1))) []

/-- The wait-for links of `buildWFGGraph`, pushed per entry and target. -/
def wfgLinksOf (wfg : List (String × List (Option Int))) : List Link :=
  wfg.foldl (fun acc e =>
    acc ++ e.2.map (fun t =>
      { source := "P" ++ e.1, target := "P" ++ jsNumStr t,
        type := EdgeType.waitFor,
        id := "wfg_" ++ e.1 ++ "_" ++ jsNumStr t : Link })) []

/-- `GraphVisualization.buildWFGGraph(wfg, cycles)` (authoritative mode):
`wfg` is the adjacency object, keys as strings (object keys), targets as
possibly-NaN numbers.  Every parsed key pid and every target pid becomes
one deduplicated process node, flagged `inCycle` when its pid occurs in
some cycle; one wait-for edge per (source, target) pair. -/
def buildWFGGraph (wfg : List (String × List (Option Int)))
    (cycles : List (List Int)) : Graph :=
  let cycleNodes := cycleNodesOf cycles
  let nodes := (allPidsOf wfg).map (fun pid =>
    { id := "P" ++ jsNumStr pid, type := NodeType.process, pid := pid,
      inCycle := match pid with
        | some p => cycleNodes.contains p
        | none => false : Node })
  { nodes := nodes, links := wfgLinksOf wfg }

/-- `edges[pid].push(...blockers)` preceded by `if (!edges[pid]) edges[pid] = []`:
append to the entry when the key exists, otherwise create it. -/
def pushBlockers (edges : List (Option Int × List (Option Int)))
    (pid : Option Int) (bs : List (Option Int)) :
    List (Option Int × List (Option Int)) :=
  if edges.any (fun e => e.1 = pid) then
    edges.map (fun e => if e.1 = pid then (e.1, e.2 ++ bs) else e)
  else edges ++ [(pid, bs)]

/-- The `blockers` array of one request-loop iteration of
`buildWFGFromSnapshot`: parsed pids of the allocation keys whose resource
fragment equals `rid`, with positive count, and whose parsed pid is `!==`
the requester's. -/
def blockersFor (allocation : List (String × Int)) (rid : Option String)
    (pid : Option Int) : List (Option Int) :=
  allocation.filterMap (fun a =>
    let apr := splitKey a.1
    let allocPid := parseIntJS apr.1
    if apr.2 = rid ∧ a.2 > 0 ∧ jsNeq allocPid pid then some allocPid
    else none)

/-- `DeadlockApp.buildWFGFromSnapshot()` (derived fallback mode): for each
positive request key, collect as blockers the parsed pids of positive
allocation keys whose resource fragment equals the request key's and
whose parsed pid differs from the requester's; record an entry only
when at least one blocker was found.  The result is the `edges` object,
keyed by the requester's parsed pid (`none` is the NaN key).

One iteration of the request loop (`wfgStep`):
`continue` on a non-positive need, otherwise parse the key, collect the
blockers, and record them under the requester's pid when any exist. -/
def wfgStep (alloc : List (String × Int))
    (edges : List (Option Int × List (Option Int))) (e : String × Int) :
    List (Option Int × List (Option Int)) :=
  if e.2 ≤ 0 then edges
  else
    let pr := splitKey e.1
    let pid := parseIntJS pr.1
    let blockers := blockersFor alloc pr.2 pid
    if blockers = [] then edges else pushBlockers edges pid blockers

def buildWFGFromSnapshot (s : Snapshot) :
    List (Option Int × List (Option Int)) :=
  s.request.foldl (wfgStep s.allocation) []

/-- The mouseover handler of `GraphVisualization.renderGraph`: one pass
over the links; every link incident to the focus node contributes its two
endpoint ids to the connected-node set and its id to the connected-link
list.  (The focus node id itself is added only as an endpoint of an
incident link.) -/
def neighborsStep (focusId : String) (acc : List String × List String)
    (l : Link) : List String × List String :=
  if l.source = focusId ∨ l.target = focusId then
    (jsSetAdd (jsSetAdd acc.1 l.source) l.target, acc.2 ++ [l.id])
  else acc

def neighborsOf (g : Graph) (focusId : String) : List String × List String :=
  g.links.foldl (neighborsStep focusId) ([], [])

/-- The fields of a saved snapshot read by `displayDifferences`
(`id`, `name`, `timestamp`, `wfg` are never read by the differ and are
not modelled here). -/
structure SavedSnapshot where
  data : Snapshot
  cycles : List (List Int)

inductive DiffType where
  | added
  | removed
  | changed
  deriving DecidableEq, Repr

structure DiffEntry where
  type : DiffType
  icon : String
  text : String
  deriving DecidableEq, Repr

/-- `new Set(processes.map(p => p.pid))`: insertion-ordered dedup. -/
def jsSetOfList (l : List Int) : List Int := l.foldl jsSetAdd []

/-- Differences pushed by the first loop of `displayDifferences`: one
`added` entry per pid in B's process set missing from A's. -/
def procAddedEntries (a b : SavedSnapshot) : List DiffEntry :=
  ((jsSetOfList b.data.processes).filter
      (fun pid => pid ∉ jsSetOfList a.data.processes)).map (fun pid =>
    { type := DiffType.added, icon := "fas fa-plus-circle",
      text := "Process P" ++ intStr pid ++ " was added" })

/-- Differences pushed by the second loop: one `removed` entry per pid in
A's process set missing from B's. -/
def procRemovedEntries (a b : SavedSnapshot) : List DiffEntry :=
  ((jsSetOfList a.data.processes).filter
      (fun pid => pid ∉ jsSetOfList b.data.processes)).map (fun pid =>
    { type := DiffType.removed, icon := "fas fa-minus-circle",
      text := "Process P" ++ intStr pid ++ " was removed" })

/-- The cycle-count comparison of `displayDifferences`: when the cycle
list lengths differ, one entry whose `type` is `removed` when the change
`cyclesB - cyclesA` is positive and `added` otherwise. -/
def cycleChangeEntries (a b : SavedSnapshot) : List DiffEntry :=
  let cyclesA := a.cycles.length
  let cyclesB := b.cycles.length
  if cyclesA ≠ cyclesB then
    let change : Int := (cyclesB : Int) - (cyclesA : Int)
    [{ type := if change > 0 then DiffType.removed else DiffType.added,
       icon := if change > 0 then "fas fa-exclamation-triangle"
               else "fas fa-check-circle",
       text := "Deadlock cycles changed from " ++ natStr cyclesA ++
         " to " ++ natStr cyclesB ++ " (" ++
         (if change > 0 then "+" else "") ++ intStr change ++ ")" }]
  else []

/-- The allocation-key-count comparison of `displayDifferences`. -/
def allocChangeEntries (a b : SavedSnapshot) : List DiffEntry :=
  let allocA := a.data.allocation.length
  let allocB := b.data.allocation.length
  if allocA ≠ allocB then
    [{ type := DiffType.changed, icon := "fas fa-exchange-alt",
       text := "Resource allocations changed from " ++ natStr allocA ++
         " to " ++ natStr allocB }]
  else []

/-- The request-key-count comparison of `displayDifferences`. -/
def reqChangeEntries (a b : SavedSnapshot) : List DiffEntry :=
  let reqA := a.data.request.length
  let reqB := b.data.request.length
  if reqA ≠ reqB then
    [{ type := DiffType.changed, icon := "fas fa-exchange-alt",
       text := "Resource requests changed from " ++ natStr reqA ++
         " to " ++ natStr reqB }]
  else []

/-- `DeadlockApp.displayDifferences(snapshotA, snapshotB)`: the
`differences` array, in push order — process additions, process
removals, cycle-count change, allocation-key-count change,
request-key-count change. -/
def displayDifferences (a b : SavedSnapshot) : List DiffEntry :=
  procAddedEntries a b ++ procRemovedEntries a b ++ cycleChangeEntries a b ++
    allocChangeEntries a b ++ reqChangeEntries a b

/-!
Aliasing model for `DeadlockApp.saveSnapshot`.

The live `currentCycles` value is a JS array of references to inner
cycle arrays.  A heap maps a reference (an index) to the inner array's
contents.  `[...this.currentCycles]` copies the outer array of
references only; `JSON.parse(JSON.stringify(x))` builds fresh inner
arrays.  Mutating an inner array through the live reference
(`currentCycles[i].push(..)`) updates the heap cell in place.
-/

/-- Heap of inner cycle arrays, addressed by index. -/
structure CycleHeap where
  cells : List (List Int)
  deriving DecidableEq, Repr

/-- Read one inner array. -/
def CycleHeap.deref (h : CycleHeap) (r : Nat) : List Int := h.cells.getD r []

/-- The value of a cycles array (a list of references) as seen by a
reader: dereference every inner array. -/
def readCycles (h : CycleHeap) (refs : List Nat) : List (List Int) :=
  refs.map h.deref

/-- `[...this.currentCycles]` in `saveSnapshot`: a new outer array that
holds the same inner-array references. -/
def spreadCopy (refs : List Nat) : List Nat := refs

/-- `JSON.parse(JSON.stringify(..))` applied to a cycles array: fresh
heap cells holding copies of the inner arrays' current contents. -/
def jsonDeepCopy (h : CycleHeap) (refs : List Nat) : CycleHeap × List Nat :=
  refs.foldl (fun st r =>
    ({ cells := st.1.cells ++ [h.deref r] }, st.2 ++ [st.1.cells.length]))
    (h, [])

/-- `currentCycles[i].push(x)`: in-place append to the inner array
behind reference `r`. -/
def pushInner (h : CycleHeap) (r : Nat) (x : Int) : CycleHeap :=
  { cells := h.cells.set r (h.deref r ++ [x]) }

/-- Recognizer for the cycle-count entry of the differ: among all entries
the differ can push, only the cycle-count entry carries one of these two
icons. -/
def isCycleEntry (e : DiffEntry) : Bool :=
  decide (e.icon = "fas fa-exclamation-triangle" ∨ e.icon = "fas fa-check-circle")

/-- The wait-for relation encoded in the derived `edges` object: an
entry keyed by `p` whose target list contains `q`. -/
def wfgHasEdge (edges : List (Option Int × List (Option Int)))
    (p q : Int) : Prop :=
  ∃ e ∈ edges, e.1 = some p ∧ some q ∈ e.2

instance (edges : List (Option Int × List (Option Int))) (p q : Int) :
    Decidable (wfgHasEdge edges p q) := by
  unfold wfgHasEdge
  infer_instance

/-- Modelled from the spec (§3 data contract): the composite key of
process `pid` and resource `rid`, under the spec's reading — split on
the FIRST underscore, the resource id being the whole remainder, so
every string `rid`, underscores included, names one resource. -/
def specKey (pid : Int) (rid : String) : String := intStr pid ++ "_" ++ rid

/-- Modelled from the spec (§4.2 derived fallback mode): `p` waits for
`q` iff some request key `(p, rid)` has positive count and some
allocation key `(q, rid)` on the same resource has positive count with
`q ≠ p`. -/
def specWaitsFor (s : Snapshot) (p q : Int) : Prop :=
  ∃ rid need, (specKey p rid, need) ∈ s.request ∧ need > 0 ∧
    ∃ cnt, (specKey q rid, cnt) ∈ s.allocation ∧ cnt > 0 ∧ q ≠ p


/-! ### Properties of the decimal rendering -/

/-- Value of a big-endian digit list read back as a natural number
(little-endian fold used as the semantics of `natAux`). -/
def denoteDigits (l : List Char) : Nat :=
  l.foldr (fun c r => 10 * r + (c.toNat - 48)) 0

theorem digitChar_val : ∀ m, m < 10 → (Nat.digitChar m).toNat - 48 = m := by
  decide

theorem digitChar_isDigit : ∀ m, m < 10 → (Nat.digitChar m).isDigit = true := by
  decide

theorem denoteDigits_natAux :
    ∀ fuel n, n < fuel → denoteDigits (natAux fuel n) = n := by
  intro fuel
  induction fuel with
  | zero => intro n h; omega
  | succ f ih =>
    intro n h
    by_cases h10 : n < 10
    · simp only [natAux, if_pos h10, denoteDigits, List.foldr]
      rw [digitChar_val n h10]
      omega
    · have hdiv : n / 10 < f := by
        have h1 : n / 10 < n := Nat.div_lt_self (by omega) (by omega)
        omega
      simp only [natAux, if_neg h10]
      have : denoteDigits (Nat.digitChar (n % 10) :: natAux f (n / 10)) =
          10 * denoteDigits (natAux f (n / 10)) + ((Nat.digitChar (n % 10)).toNat - 48) := rfl
      rw [this, ih _ hdiv, digitChar_val _ (Nat.mod_lt n (by omega))]
      omega

theorem natAux_isDigit :
    ∀ fuel n c, c ∈ natAux fuel n → c.isDigit = true := by
  intro fuel
  induction fuel with
  | zero => intro n c h; simp [natAux] at h
  | succ f ih =>
    intro n c h
    by_cases h10 : n < 10
    · simp only [natAux, if_pos h10, List.mem_singleton] at h
      subst h
      exact digitChar_isDigit n h10
    · simp only [natAux, if_neg h10, List.mem_cons] at h
      rcases h with h | h
      · subst h
        exact digitChar_isDigit _ (Nat.mod_lt n (by omega))
      · exact ih _ _ h

theorem natAux_ne_nil (fuel n : Nat) : natAux (fuel + 1) n ≠ [] := by
  by_cases h10 : n < 10 <;> simp [natAux, h10]

theorem natStr_toList_isDigit (n : Nat) :
    ∀ c ∈ (natStr n).toList, c.isDigit = true := by
  intro c hc
  have : c ∈ (natAux (n + 1) n).reverse := hc
  exact natAux_isDigit _ _ _ (List.mem_reverse.mp this)

theorem natStr_injective : Function.Injective natStr := by
  intro a b h
  have hl : (natAux (a + 1) a).reverse = (natAux (b + 1) b).reverse :=
    congrArg String.data h
  have hl2 : natAux (a + 1) a = natAux (b + 1) b :=
    List.reverse_injective hl
  have ha := denoteDigits_natAux (a + 1) a (by omega)
  have hb := denoteDigits_natAux (b + 1) b (by omega)
  rw [hl2] at ha
  omega

theorem natStr_toList_ne_nil (n : Nat) : (natStr n).toList ≠ [] := by
  intro h
  have h2 : (natAux (n + 1) n).reverse = [] := h
  rw [List.reverse_eq_nil_iff] at h2
  exact natAux_ne_nil n n h2

theorem string_data_append (a b : String) : (a ++ b).data = a.data ++ b.data := by
  cases a; cases b; rfl

theorem string_ext (a b : String) (h : a.data = b.data) : a = b := by
  cases a; cases b; exact congrArg String.mk h

theorem intStr_neg_toList (m : Nat) :
    (intStr (Int.negSucc m)).toList = '-' :: (natStr (m + 1)).toList := by
  show ("-" ++ natStr (m + 1)).data = '-' :: (natStr (m + 1)).data
  rw [string_data_append]
  rfl

theorem intStr_injective : Function.Injective intStr := by
  intro a b h
  cases a with
  | ofNat n =>
    cases b with
    | ofNat m => exact congrArg Int.ofNat (natStr_injective h)
    | negSucc m =>
      exfalso
      have h2 := congrArg String.data h
      simp only [intStr] at h2
      rw [string_data_append] at h2
      have hmem : ('-' : Char) ∈ (natStr n).data := by
        rw [h2]; exact List.mem_cons_self _ _
      have := natStr_toList_isDigit n _ hmem
      simp [Char.isDigit] at this
  | negSucc n =>
    cases b with
    | ofNat m =>
      exfalso
      have h2 := congrArg String.data h
      simp only [intStr] at h2
      rw [string_data_append] at h2
      have hmem : ('-' : Char) ∈ (natStr m).data := by
        rw [← h2]; exact List.mem_cons_self _ _
      have := natStr_toList_isDigit m _ hmem
      simp [Char.isDigit] at this
    | negSucc m =>
      have h2 := congrArg String.data h
      simp only [intStr] at h2
      rw [string_data_append, string_data_append] at h2
      have hd : (natStr (n + 1)).data = (natStr (m + 1)).data :=
        List.tail_eq_of_cons_eq h2
      have heq := natStr_injective (string_ext _ _ hd)
      exact congrArg Int.negSucc (by omega)

theorem takeWhile_all {α : Type} (p : α → Bool) :
    ∀ l : List α, (∀ c ∈ l, p c = true) → l.takeWhile p = l := by
  intro l
  induction l with
  | nil => intro; rfl
  | cons c t ih =>
    intro h
    have hc := h c (List.mem_cons_self _ _)
    simp [List.takeWhile_cons, hc, ih (fun x hx => h x (List.mem_cons_of_mem _ hx))]

theorem parseDigits_all_digits (l : List Char)
    (h : ∀ c ∈ l, c.isDigit = true) (hne : l ≠ []) :
    parseDigits l = some (l.foldl (fun acc c => 10 * acc + (c.toNat - 48)) 0) := by
  unfold parseDigits
  rw [takeWhile_all _ l h]
  simp [hne]

theorem foldl_digits_reverse (l : List Char) :
    l.reverse.foldl (fun acc c => 10 * acc + (c.toNat - 48)) 0 = denoteDigits l := by
  rw [List.foldl_reverse]
  rfl

theorem natStr_foldl (n : Nat) :
    (natStr n).toList.foldl (fun acc c => 10 * acc + (c.toNat - 48)) 0 = n := by
  show (natAux (n + 1) n).reverse.foldl _ 0 = n
  rw [foldl_digits_reverse]
  exact denoteDigits_natAux (n + 1) n (by omega)

theorem parseIntJS_natStr (n : Nat) : parseIntJS (natStr n) = some (n : Int) := by
  unfold parseIntJS
  obtain ⟨c, t, hct⟩ := List.exists_cons_of_ne_nil (natStr_toList_ne_nil n)
  have hdigits := natStr_toList_isDigit n
  have hc : c.isDigit = true := hdigits c (by rw [hct]; exact List.mem_cons_self _ _)
  have hcsp : ¬ (c = ' ') := by intro h; subst h; exact absurd hc (by decide)
  have hcs : (natStr n).toList.dropWhile (fun c => c = ' ') = c :: t := by
    rw [hct, List.dropWhile_cons]
    simp [hcsp]
  have hcm : c ≠ '-' := by intro h; subst h; exact absurd hc (by decide)
  have hcp : c ≠ '+' := by intro h; subst h; exact absurd hc (by decide)
  simp only [hcs]
  split
  · rename_i rest heq; exact absurd (List.head_eq_of_cons_eq heq) hcm
  · rename_i rest heq; exact absurd (List.head_eq_of_cons_eq heq) hcp
  · rw [← hct, parseDigits_all_digits _ hdigits (natStr_toList_ne_nil n)]
    simp
    exact natStr_foldl n

theorem parseIntJS_intStr (n : Int) : parseIntJS (intStr n) = some n := by
  cases n with
  | ofNat m => exact parseIntJS_natStr m
  | negSucc m =>
    unfold parseIntJS
    have hdata : (intStr (Int.negSucc m)).toList = '-' :: (natStr (m + 1)).toList :=
      intStr_neg_toList m
    have hdw : List.dropWhile (fun c => decide (c = ' '))
        (intStr (Int.negSucc m)).toList = '-' :: (natStr (m + 1)).toList := by
      rw [hdata, List.dropWhile_cons]
      simp
    simp only [hdw]
    rw [parseDigits_all_digits _ (natStr_toList_isDigit (m + 1))
      (natStr_toList_ne_nil (m + 1))]
    have hf : List.foldl (fun acc c => 10 * acc + (c.toNat - 48)) 0
        (natStr (m + 1)).data = m + 1 := natStr_foldl (m + 1)
    simp [hf, Int.negSucc_eq]

theorem underscore_not_mem_natStr (n : Nat) : ('_' : Char) ∉ (natStr n).toList := by
  intro h
  have := natStr_toList_isDigit n _ h
  exact absurd this (by decide)

theorem underscore_not_mem_intStr (n : Int) : ('_' : Char) ∉ (intStr n).toList := by
  cases n with
  | ofNat m => exact underscore_not_mem_natStr m
  | negSucc m =>
    rw [intStr_neg_toList]
    intro h
    rcases List.mem_cons.mp h with h | h
    · exact absurd h (by decide)
    · exact underscore_not_mem_natStr (m + 1) h

/-! ### Properties of the key split -/

theorem splitChars_ne_nil : ∀ l : List Char, splitChars l ≠ [] := by
  intro l
  cases l with
  | nil => simp [splitChars]
  | cons c cs =>
    unfold splitChars
    by_cases hc : c = '_'
    · simp [hc]
    · simp only [if_neg hc]
      split <;> simp

theorem splitChars_no_sep : ∀ l : List Char, '_' ∉ l → splitChars l = [l] := by
  intro l
  induction l with
  | nil => intro; rfl
  | cons c cs ih =>
    intro h
    have hc : ¬ (c = '_') := fun hx => h (hx ▸ List.mem_cons_self _ _)
    have hcs : '_' ∉ cs := fun hx => h (List.mem_cons_of_mem _ hx)
    unfold splitChars
    rw [if_neg hc, ih hcs]

theorem splitChars_cons (c : Char) (cs : List Char) :
    splitChars (c :: cs) =
      if c = '_' then [] :: splitChars cs
      else
        match splitChars cs with
        | [] => [[c]]
        | r :: rs => (c :: r) :: rs := rfl

theorem splitChars_append (l₁ l₂ : List Char) (h : '_' ∉ l₁) :
    splitChars (l₁ ++ '_' :: l₂) = l₁ :: splitChars l₂ := by
  induction l₁ with
  | nil =>
    show splitChars ('_' :: l₂) = [] :: splitChars l₂
    rw [splitChars_cons, if_pos rfl]
  | cons c t ih =>
    have hc : ¬ (c = '_') := fun hx => h (hx ▸ List.mem_cons_self _ _)
    have ht : '_' ∉ t := fun hx => h (List.mem_cons_of_mem _ hx)
    show splitChars (c :: (t ++ '_' :: l₂)) = (c :: t) :: splitChars l₂
    rw [splitChars_cons, if_neg hc, ih ht]

theorem string_mk_data (s : String) : String.mk s.data = s := by
  cases s; rfl

theorem splitKey_no_sep (k : String) (h : '_' ∉ k.data) :
    splitKey k = (k, none) := by
  unfold splitKey jsSplit
  have : splitChars k.toList = [k.data] := splitChars_no_sep k.data h
  rw [this]
  simp [string_mk_data]

theorem underscore_data : ("_" : String).data = ['_'] := by
  decide

theorem data_key_single (p r : String) :
    (p ++ "_" ++ r).data = p.data ++ '_' :: r.data := by
  rw [string_data_append, string_data_append, underscore_data]
  simp

theorem splitKey_single (p r : String) (hp : '_' ∉ p.data)
    (hr : '_' ∉ r.data) : splitKey (p ++ "_" ++ r) = (p, some r) := by
  unfold splitKey jsSplit
  have h1 : (p ++ "_" ++ r).toList = p.data ++ '_' :: r.data := data_key_single p r
  rw [h1, splitChars_append _ _ hp, splitChars_no_sep _ hr]
  simp [string_mk_data]

theorem data_key_double (p r rest : String) :
    (p ++ "_" ++ r ++ "_" ++ rest).data =
      p.data ++ '_' :: (r.data ++ '_' :: rest.data) := by
  rw [string_data_append, string_data_append, string_data_append,
    string_data_append, underscore_data]
  simp

theorem splitKey_double (p r rest : String) (hp : '_' ∉ p.data)
    (hr : '_' ∉ r.data) :
    splitKey (p ++ "_" ++ r ++ "_" ++ rest) = (p, some r) := by
  unfold splitKey jsSplit
  have h1 : (p ++ "_" ++ r ++ "_" ++ rest).toList =
      p.data ++ '_' :: (r.data ++ '_' :: rest.data) := data_key_double p r rest
  rw [h1, splitChars_append _ _ hp, splitChars_append _ _ hr]
  simp [string_mk_data]

theorem append_underscore_inj : ∀ a c b d : List Char, '_' ∉ a → '_' ∉ c →
    a ++ '_' :: b = c ++ '_' :: d → a = c ∧ b = d := by
  intro a
  induction a with
  | nil =>
    intro c b d _ hc h
    cases c with
    | nil => simpa using h
    | cons y u =>
      exfalso
      have hy : y = '_' := (List.head_eq_of_cons_eq h).symm
      exact hc (hy ▸ List.mem_cons_self _ _)
  | cons x t ih =>
    intro c b d ha hc h
    cases c with
    | nil =>
      exfalso
      have hx : x = '_' := List.head_eq_of_cons_eq h
      exact ha (hx ▸ List.mem_cons_self _ _)
    | cons y u =>
      have hxy : x = y := List.head_eq_of_cons_eq h
      have ht : t ++ '_' :: b = u ++ '_' :: d := List.tail_eq_of_cons_eq h
      have hta : '_' ∉ t := fun hm => ha (List.mem_cons_of_mem _ hm)
      have htc : '_' ∉ u := fun hm => hc (List.mem_cons_of_mem _ hm)
      obtain ⟨h1, h2⟩ := ih u b d hta htc ht
      exact ⟨by rw [hxy, h1], h2⟩

/-! ### Properties of the JS set model -/

theorem mem_jsSetAdd {α : Type} [DecidableEq α] (l : List α) (x y : α) :
    y ∈ jsSetAdd l x ↔ y ∈ l ∨ y = x := by
  unfold jsSetAdd
  split
  · rename_i hx
    constructor
    · exact fun h => Or.inl h
    · rintro (h | h)
      · exact h
      · exact h ▸ hx
  · simp

theorem nodup_jsSetAdd {α : Type} [DecidableEq α] (l : List α) (x : α)
    (h : l.Nodup) : (jsSetAdd l x).Nodup := by
  unfold jsSetAdd
  split
  · exact h
  · rename_i hx
    simp [List.nodup_append, h, hx]

theorem mem_foldl_jsSetAdd {α : Type} [DecidableEq α] :
    ∀ (l : List α) (init : List α) (y : α),
      y ∈ l.foldl jsSetAdd init ↔ y ∈ init ∨ y ∈ l := by
  intro l
  induction l with
  | nil => simp
  | cons c t ih =>
    intro init y
    rw [List.foldl_cons, ih, mem_jsSetAdd]
    simp only [List.mem_cons]
    tauto

theorem nodup_foldl_jsSetAdd {α : Type} [DecidableEq α] :
    ∀ (l : List α) (init : List α), init.Nodup →
      (l.foldl jsSetAdd init).Nodup := by
  intro l
  induction l with
  | nil => exact fun init h => h
  | cons c t ih =>
    intro init h
    exact ih _ (nodup_jsSetAdd _ _ h)

/-! ### Claim C1: direction of the cycle-count difference indicator -/

theorem filter_map_nil {α β : Type} (p : β → Bool) (f : α → β)
    (h : ∀ x, p (f x) = false) (l : List α) : (l.map f).filter p = [] := by
  induction l with
  | nil => rfl
  | cons c t ih => simp [h c, ih]

theorem procAdded_filter_cycle (a b : SavedSnapshot) :
    (procAddedEntries a b).filter isCycleEntry = [] := by
  unfold procAddedEntries
  exact filter_map_nil _ _ (fun x => by rfl) _

theorem procRemoved_filter_cycle (a b : SavedSnapshot) :
    (procRemovedEntries a b).filter isCycleEntry = [] := by
  unfold procRemovedEntries
  exact filter_map_nil _ _ (fun x => by rfl) _

theorem allocChange_filter_cycle (a b : SavedSnapshot) :
    (allocChangeEntries a b).filter isCycleEntry = [] := by
  simp only [allocChangeEntries]
  split
  · rw [List.filter_singleton]
    simp only [show ∀ t x, isCycleEntry
      { type := t, icon := "fas fa-exchange-alt", text := x : DiffEntry } =
        false from fun t x => rfl]
    rfl
  · rfl

theorem reqChange_filter_cycle (a b : SavedSnapshot) :
    (reqChangeEntries a b).filter isCycleEntry = [] := by
  simp only [reqChangeEntries]
  split
  · rw [List.filter_singleton]
    simp only [show ∀ t x, isCycleEntry
      { type := t, icon := "fas fa-exchange-alt", text := x : DiffEntry } =
        false from fun t x => rfl]
    rfl
  · rfl

/-- C1 (counterexample): snapshot A has one cycle, snapshot B has none,
so the delta is `-1 < 0`; the claim says the single cycle-count entry is
then classified `removed`-style, but the differ tags it `added`. -/
theorem cycle_entry_inverted_cex :
    (displayDifferences { data := ⟨[], [], [], []⟩, cycles := [[1, 2]] }
        { data := ⟨[], [], [], []⟩, cycles := [] }).map DiffEntry.type =
      [DiffType.added] := by decide

/-- C1 (amended): when the cycle sets of the two saved snapshots have
different lengths, the differ emits exactly one cycle-count entry, and it
is tagged `removed` when the delta (B minus A) is positive and `added`
when the delta is negative (the opposite assignment to the claimed one;
the accompanying icon is the warning triangle for a positive delta and
the check mark for a negative one). -/
theorem cycle_entry_direction (a b : SavedSnapshot)
    (h : a.cycles.length ≠ b.cycles.length) :
    (displayDifferences a b).filter isCycleEntry =
      [{ type := if ((b.cycles.length : Int) - (a.cycles.length : Int)) > 0
           then DiffType.removed else DiffType.added,
         icon := if ((b.cycles.length : Int) - (a.cycles.length : Int)) > 0
           then "fas fa-exclamation-triangle" else "fas fa-check-circle",
         text := "Deadlock cycles changed from " ++ natStr a.cycles.length ++
           " to " ++ natStr b.cycles.length ++ " (" ++
           (if ((b.cycles.length : Int) - (a.cycles.length : Int)) > 0
             then "+" else "") ++
           intStr ((b.cycles.length : Int) - (a.cycles.length : Int)) ++
           ")" }] := by
  unfold displayDifferences
  rw [List.filter_append, List.filter_append, List.filter_append,
    List.filter_append]
  rw [procAdded_filter_cycle, procRemoved_filter_cycle,
    allocChange_filter_cycle, reqChange_filter_cycle]
  unfold cycleChangeEntries
  rw [if_pos h]
  rw [List.filter_singleton]
  by_cases hpos : ((b.cycles.length : Int) - (a.cycles.length : Int)) > 0
  · simp only [if_pos hpos]
    have hfact : ∀ x : String,
        isCycleEntry ⟨DiffType.removed, "fas fa-exclamation-triangle", x⟩ =
          true := fun x => rfl
    simp only [hfact]
    simp
  · simp only [if_neg hpos]
    have hfact : ∀ x : String,
        isCycleEntry ⟨DiffType.added, "fas fa-check-circle", x⟩ = true :=
      fun x => rfl
    simp only [hfact]
    simp

/-- C1 (witness): the amended theorem applied to two concrete saved
snapshots with 0 and 2 cycles. -/
theorem cycle_entry_direction_witness :
    (displayDifferences { data := ⟨[], [], [], []⟩, cycles := [] }
        { data := ⟨[], [], [], []⟩, cycles := [[1, 2], [3, 4]] }).filter
        isCycleEntry =
      [{ type := DiffType.removed, icon := "fas fa-exclamation-triangle",
         text := "Deadlock cycles changed from 0 to 2 (+2)" }] := by
  have h := cycle_entry_direction
    { data := ⟨[], [], [], []⟩, cycles := [] }
    { data := ⟨[], [], [], []⟩, cycles := [[1, 2], [3, 4]] } (by decide)
  rw [h]
  decide

/-! ### Claim C2: handling of keys without an underscore -/

/-- C2 (counterexample): the allocation key `"1A"` has no `_` separator;
the claim says the build fails with `MalformedKeyError` and never emits
an edge for the key, but the build is total and emits an edge whose
target is the literal node id `"Rundefined"`. -/
theorem malformed_key_no_error_cex :
    (buildRAGGraph ⟨[], [], [("1A", 1)], []⟩).links =
      [{ source := "P1A", target := "Rundefined",
         type := EdgeType.allocation, weight := some 1,
         id := "alloc_1A" }] := by decide

/-- C2 (amended): no error is raised for a composite key lacking an `_`
separator — the builds have no failure path at all.  For such a key with
positive count the RAG build emits an edge anyway: the whole key becomes
the pid fragment and the resource fragment is JS `undefined`, so the
edge runs from `P{key}` to the node id `Rundefined`. -/
theorem malformed_key_edge_emitted (s : Snapshot) (key : String) (cnt : Int)
    (hk : '_' ∉ key.data) (hcnt : 0 < cnt)
    (hmem : (key, cnt) ∈ s.allocation) :
    { source := "P" ++ key, target := "Rundefined",
      type := EdgeType.allocation, weight := some cnt,
      id := "alloc_" ++ key : Link } ∈ (buildRAGGraph s).links := by
  unfold buildRAGGraph
  apply List.mem_append_left
  rw [List.mem_filterMap]
  refine ⟨(key, cnt), hmem, ?_⟩
  rw [if_pos hcnt, splitKey_no_sep key hk]
  rfl

/-- C2 (witness): the amended theorem at the concrete snapshot with the
single malformed allocation key `"1A"`. -/
theorem malformed_key_edge_emitted_witness :
    { source := "P" ++ "1A", target := "Rundefined",
      type := EdgeType.allocation, weight := some 1,
      id := "alloc_" ++ "1A" : Link } ∈
      (buildRAGGraph ⟨[], [], [("1A", 1)], []⟩).links :=
  malformed_key_edge_emitted ⟨[], [], [("1A", 1)], []⟩ "1A" 1
    (by decide) (by decide) (by decide)

/-! ### Claim C3: the mouseover neighborhood computation -/

/-- C3 (counterexample): a graph with the single node `P1` and no links;
the claim says the neighborhood of `P1` is `({P1}, {})`, but the
computation returns the empty node set (the focus node is added only as
an endpoint of an incident link, so an isolated focus node is dimmed
with everything else). -/
theorem neighbors_isolated_cex :
    neighborsOf
      { nodes := [{ id := "P1", type := NodeType.process, pid := some 1 }],
        links := [] } "P1" = ([], []) := by decide

theorem neighbors_fold_snd (focusId : String) :
    ∀ (ls : List Link) (acc : List String × List String),
      (ls.foldl (neighborsStep focusId) acc).2 =
        acc.2 ++ (ls.filter (fun l =>
          decide (l.source = focusId ∨ l.target = focusId))).map Link.id := by
  intro ls
  induction ls with
  | nil => simp
  | cons l t ih =>
    intro acc
    rw [List.foldl_cons, ih]
    unfold neighborsStep
    by_cases hc : l.source = focusId ∨ l.target = focusId
    · rw [if_pos hc]
      simp [hc]
    · rw [if_neg hc]
      simp [hc]

theorem neighbors_fold_fst (focusId : String) :
    ∀ (ls : List Link) (acc : List String × List String) (x : String),
      x ∈ (ls.foldl (neighborsStep focusId) acc).1 ↔
        x ∈ acc.1 ∨ ∃ l ∈ ls, (l.source = focusId ∨ l.target = focusId) ∧
          (x = l.source ∨ x = l.target) := by
  intro ls
  induction ls with
  | nil => simp
  | cons l t ih =>
    intro acc x
    rw [List.foldl_cons, ih]
    unfold neighborsStep
    by_cases hc : l.source = focusId ∨ l.target = focusId
    · rw [if_pos hc]
      simp only [mem_jsSetAdd, List.mem_cons]
      constructor
      · rintro (((hx | hx) | hx) | hx)
        · exact Or.inl hx
        · exact Or.inr ⟨l, Or.inl rfl, hc, Or.inl hx⟩
        · exact Or.inr ⟨l, Or.inl rfl, hc, Or.inr hx⟩
        · rcases hx with ⟨l2, hl2, hcond, hend⟩
          exact Or.inr ⟨l2, Or.inr hl2, hcond, hend⟩
      · rintro (hx | ⟨l2, (rfl | hl2), hcond, hend⟩)
        · exact Or.inl (Or.inl (Or.inl hx))
        · rcases hend with hx | hx
          · exact Or.inl (Or.inl (Or.inr hx))
          · exact Or.inl (Or.inr hx)
        · exact Or.inr ⟨l2, hl2, hcond, hend⟩
    · rw [if_neg hc]
      constructor
      · rintro (hx | ⟨l2, hl2, hcond, hend⟩)
        · exact Or.inl hx
        · exact Or.inr ⟨l2, List.mem_cons_of_mem _ hl2, hcond, hend⟩
      · rintro (hx | ⟨l2, hl2, hcond, hend⟩)
        · exact Or.inl hx
        · rcases List.mem_cons.mp hl2 with rfl | hl2
          · exact absurd hcond hc
          · exact Or.inr ⟨l2, hl2, hcond, hend⟩

/-- C3 (amended): the computation selects exactly the links incident to
the focus node (the link id list, in order); the node set is exactly the
set of endpoints of the selected links — it contains the focus node iff
the focus node has at least one incident link, and for a focus node with
no incident links the whole result is `({}, {})`, with no error. -/
theorem neighborsOf_characterization (g : Graph) (focusId : String) :
    (neighborsOf g focusId).2 =
      (g.links.filter (fun l =>
        decide (l.source = focusId ∨ l.target = focusId))).map Link.id ∧
    ∀ x : String, x ∈ (neighborsOf g focusId).1 ↔
      ∃ l ∈ g.links, (l.source = focusId ∨ l.target = focusId) ∧
        (x = l.source ∨ x = l.target) := by
  constructor
  · rw [neighborsOf, neighbors_fold_snd]
    rfl
  · intro x
    rw [neighborsOf, neighbors_fold_fst]
    simp

/-! ### Claim C4: saveSnapshot and the comparison baseline -/

/-- C4 (code bug): `saveSnapshot` stores `[...this.currentCycles]`, a
copy of the outer array only.  With one live cycle array `[1, 2]` on the
heap, the saved cycles read back `[[1, 2]]` at capture time, but after
`currentCycles[0].push(3)` on the live state the saved snapshot reads
`[[1, 2, 3]]` — the saved baseline changed.  A JSON round-trip deep copy
(which `saveSnapshot` does apply to `data` and `wfg`) is immune: the
same mutation leaves its read-back at `[[1, 2]]`. -/
theorem saveSnapshot_cycles_alias_bug :
    readCycles (⟨[[1, 2]]⟩ : CycleHeap) (spreadCopy [0]) = [[1, 2]] ∧
    readCycles (pushInner (⟨[[1, 2]]⟩ : CycleHeap) 0 3) (spreadCopy [0]) =
      [[1, 2, 3]] ∧
    readCycles (pushInner (jsonDeepCopy (⟨[[1, 2]]⟩ : CycleHeap) [0]).1 0 3)
      (jsonDeepCopy (⟨[[1, 2]]⟩ : CycleHeap) [0]).2 = [[1, 2]] := by
  decide

/-! ### Claim C5: composite keys split on every underscore -/

/-- C5 (counterexample): the allocation key `"1_a_b"` should, per the
claim, produce an edge to resource id `"a_b"` (node `Ra_b`); the build
splits on every underscore and emits the edge to `"Ra"`. -/
theorem split_truncates_cex :
    (buildRAGGraph ⟨[], [], [("1_a_b", 1)], []⟩).links.map Link.target =
      ["Ra"] := by decide

/-- C5 (amended): parsing keeps only the first two `_`-separated
fragments — the pid is the text before the first `_`, the resource id is
the text between the first and the second `_`, and anything after a
second `_` is dropped.  The RAG edges use exactly those fragments (for a
key with a single `_` the resource fragment is the whole remainder). -/
theorem split_first_two_fragments (s : Snapshot) (p r1 rest : String)
    (hp : '_' ∉ p.data) (hr : '_' ∉ r1.data) (cnt : Int) (hcnt : 0 < cnt) :
    (splitKey (p ++ "_" ++ r1) = (p, some r1) ∧
      splitKey (p ++ "_" ++ r1 ++ "_" ++ rest) = (p, some r1)) ∧
    ((p ++ "_" ++ r1 ++ "_" ++ rest, cnt) ∈ s.allocation →
      { source := "P" ++ p, target := "R" ++ r1,
        type := EdgeType.allocation, weight := some cnt,
        id := "alloc_" ++ (p ++ "_" ++ r1 ++ "_" ++ rest) : Link } ∈
        (buildRAGGraph s).links) ∧
    ((p ++ "_" ++ r1 ++ "_" ++ rest, cnt) ∈ s.request →
      { source := "R" ++ r1, target := "P" ++ p,
        type := EdgeType.request, weight := some cnt,
        id := "req_" ++ (p ++ "_" ++ r1 ++ "_" ++ rest) : Link } ∈
        (buildRAGGraph s).links) := by
  refine ⟨⟨splitKey_single p r1 hp hr, splitKey_double p r1 rest hp hr⟩,
    ?_, ?_⟩
  · intro hmem
    unfold buildRAGGraph
    apply List.mem_append_left
    rw [List.mem_filterMap]
    refine ⟨_, hmem, ?_⟩
    rw [if_pos hcnt, splitKey_double p r1 rest hp hr]
    rfl
  · intro hmem
    unfold buildRAGGraph
    apply List.mem_append_right
    rw [List.mem_filterMap]
    refine ⟨_, hmem, ?_⟩
    rw [if_pos hcnt, splitKey_double p r1 rest hp hr]
    rfl

/-- C5 (witness): the amended theorem at the snapshot whose only
allocation key is `"1_a_b"`. -/
theorem split_first_two_fragments_witness :
    { source := "P" ++ "1", target := "R" ++ "a",
      type := EdgeType.allocation, weight := some 1,
      id := "alloc_" ++ ("1" ++ "_" ++ "a" ++ "_" ++ "b") : Link } ∈
      (buildRAGGraph ⟨[], [], [("1_a_b", 1)], []⟩).links :=
  (split_first_two_fragments ⟨[], [], [("1_a_b", 1)], []⟩ "1" "a" "b"
    (by decide) (by decide) 1 (by decide)).2.1 (by decide)

/-! ### String id helpers for the graph invariants -/

theorem string_append_left_cancel {p a b : String} (h : p ++ a = p ++ b) :
    a = b := by
  have h2 := congrArg String.data h
  rw [string_data_append, string_data_append] at h2
  exact string_ext _ _ (List.append_cancel_left h2)

theorem prefix_append_injective (p : String) :
    Function.Injective (fun x : String => p ++ x) :=
  fun _ _ h => string_append_left_cancel h

theorem P_ne_R (a b : String) : "P" ++ a ≠ "R" ++ b := by
  intro h
  have h2 := congrArg String.data h
  rw [string_data_append, string_data_append,
    show ("P" : String).data = ['P'] from by decide,
    show ("R" : String).data = ['R'] from by decide] at h2
  exact absurd (List.head_eq_of_cons_eq h2) (by decide)

theorem intStr_chars (n : Int) :
    ∀ c ∈ (intStr n).data, c.isDigit = true ∨ c = '-' := by
  cases n with
  | ofNat m => exact fun c hc => Or.inl (natStr_toList_isDigit m c hc)
  | negSucc m =>
    intro c hc
    rw [show (intStr (Int.negSucc m)).data =
      '-' :: (natStr (m + 1)).toList from intStr_neg_toList m] at hc
    rcases List.mem_cons.mp hc with rfl | hc
    · exact Or.inr rfl
    · exact Or.inl (natStr_toList_isDigit (m + 1) c hc)

theorem jsNumStr_injective : Function.Injective jsNumStr := by
  intro a b h
  cases a with
  | none =>
    cases b with
    | none => rfl
    | some m =>
      exfalso
      have hmem : ('a' : Char) ∈ (intStr m).data := by
        rw [show (intStr m).data = ("NaN" : String).data from
          congrArg String.data h.symm]
        decide
      rcases intStr_chars m _ hmem with hd | hd
      · exact absurd hd (by decide)
      · exact absurd hd (by decide)
  | some n =>
    cases b with
    | none =>
      exfalso
      have hmem : ('a' : Char) ∈ (intStr n).data := by
        rw [show (intStr n).data = ("NaN" : String).data from
          congrArg String.data h]
        decide
      rcases intStr_chars n _ hmem with hd | hd
      · exact absurd hd (by decide)
      · exact absurd hd (by decide)
    | some m => exact congrArg some (intStr_injective h)

/-! ### Membership characterizations of the builders -/

theorem mem_ragNodes (s : Snapshot) (n : Node) :
    n ∈ (buildRAGGraph s).nodes ↔
      (∃ pid ∈ s.processes, n =
        { id := "P" ++ intStr pid, type := NodeType.process,
          pid := some pid }) ∨
      (∃ r ∈ s.resources, n =
        { id := "R" ++ r.1, type := NodeType.resource, rid := some r.1,
          total := some r.2 }) := by
  show n ∈ _ ++ _ ↔ _
  rw [List.mem_append, List.mem_map, List.mem_map]
  constructor
  · rintro (⟨pid, hp, rfl⟩ | ⟨r, hr, rfl⟩)
    · exact Or.inl ⟨pid, hp, rfl⟩
    · exact Or.inr ⟨r, hr, rfl⟩
  · rintro (⟨pid, hp, rfl⟩ | ⟨r, hr, rfl⟩)
    · exact Or.inl ⟨pid, hp, rfl⟩
    · exact Or.inr ⟨r, hr, rfl⟩

theorem mem_ragLinks (s : Snapshot) (l : Link) :
    l ∈ (buildRAGGraph s).links ↔
      (∃ e ∈ s.allocation, 0 < e.2 ∧
        l = { source := "P" ++ (splitKey e.1).1,
              target := "R" ++ jsStr (splitKey e.1).2,
              type := EdgeType.allocation, weight := some e.2,
              id := "alloc_" ++ e.1 }) ∨
      (∃ e ∈ s.request, 0 < e.2 ∧
        l = { source := "R" ++ jsStr (splitKey e.1).2,
              target := "P" ++ (splitKey e.1).1,
              type := EdgeType.request, weight := some e.2,
              id := "req_" ++ e.1 }) := by
  show l ∈ _ ++ _ ↔ _
  rw [List.mem_append, List.mem_filterMap, List.mem_filterMap]
  constructor
  · rintro (⟨e, he, hf⟩ | ⟨e, he, hf⟩)
    · by_cases h0 : e.2 > 0
      · rw [if_pos h0] at hf
        exact Or.inl ⟨e, he, h0, (Option.some.injEq _ _ ▸ hf).symm⟩
      · rw [if_neg h0] at hf
        exact absurd hf (by simp)
    · by_cases h0 : e.2 > 0
      · rw [if_pos h0] at hf
        exact Or.inr ⟨e, he, h0, (Option.some.injEq _ _ ▸ hf).symm⟩
      · rw [if_neg h0] at hf
        exact absurd hf (by simp)
  · rintro (⟨e, he, h0, rfl⟩ | ⟨e, he, h0, rfl⟩)
    · exact Or.inl ⟨e, he, by rw [if_pos h0]⟩
    · exact Or.inr ⟨e, he, by rw [if_pos h0]⟩

theorem mem_allPidsOf (wfg : List (String × List (Option Int)))
    (x : Option Int) :
    x ∈ allPidsOf wfg ↔ ∃ e ∈ wfg, x = parseIntJS e.1 ∨ x ∈ e.2 := by
  have hgen : ∀ (w : List (String × List (Option Int)))
      (init : List (Option Int)),
      x ∈ w.foldl (fun acc e =>
        e.2.foldl jsSetAdd (jsSetAdd acc (parseIntJS e.1))) init ↔
      x ∈ init ∨ ∃ e ∈ w, x = parseIntJS e.1 ∨ x ∈ e.2 := by
    intro w
    induction w with
    | nil => simp
    | cons e t ih =>
      intro init
      rw [List.foldl_cons, ih, mem_foldl_jsSetAdd, mem_jsSetAdd]
      simp only [List.mem_cons]
      constructor
      · rintro (((hx | hx) | hx) | ⟨e2, he2, hx⟩)
        · exact Or.inl hx
        · exact Or.inr ⟨e, Or.inl rfl, Or.inl hx⟩
        · exact Or.inr ⟨e, Or.inl rfl, Or.inr hx⟩
        · exact Or.inr ⟨e2, Or.inr he2, hx⟩
      · rintro (hx | ⟨e2, (rfl | he2), hx⟩)
        · exact Or.inl (Or.inl (Or.inl hx))
        · rcases hx with hx | hx
          · exact Or.inl (Or.inl (Or.inr hx))
          · exact Or.inl (Or.inr hx)
        · exact Or.inr ⟨e2, he2, hx⟩
  simpa [allPidsOf] using hgen wfg []

theorem nodup_allPidsOf (wfg : List (String × List (Option Int))) :
    (allPidsOf wfg).Nodup := by
  have hgen : ∀ (w : List (String × List (Option Int)))
      (init : List (Option Int)), init.Nodup →
      (w.foldl (fun acc e =>
        e.2.foldl jsSetAdd (jsSetAdd acc (parseIntJS e.1))) init).Nodup := by
    intro w
    induction w with
    | nil => exact fun init h => h
    | cons e t ih =>
      intro init h
      exact ih _ (nodup_foldl_jsSetAdd _ _ (nodup_jsSetAdd _ _ h))
  exact hgen wfg [] List.nodup_nil

theorem mem_wfgLinksOf (wfg : List (String × List (Option Int)))
    (l : Link) :
    l ∈ wfgLinksOf wfg ↔ ∃ e ∈ wfg, ∃ t ∈ e.2,
      l = { source := "P" ++ e.1, target := "P" ++ jsNumStr t,
            type := EdgeType.waitFor,
            id := "wfg_" ++ e.1 ++ "_" ++ jsNumStr t } := by
  have hgen : ∀ (w : List (String × List (Option Int)))
      (init : List Link),
      l ∈ w.foldl (fun acc e => acc ++ e.2.map (fun t =>
        { source := "P" ++ e.1, target := "P" ++ jsNumStr t,
          type := EdgeType.waitFor,
          id := "wfg_" ++ e.1 ++ "_" ++ jsNumStr t : Link })) init ↔
      l ∈ init ∨ ∃ e ∈ w, ∃ t ∈ e.2,
        l = { source := "P" ++ e.1, target := "P" ++ jsNumStr t,
              type := EdgeType.waitFor,
              id := "wfg_" ++ e.1 ++ "_" ++ jsNumStr t } := by
    intro w
    induction w with
    | nil => simp
    | cons e tl ih =>
      intro init
      rw [List.foldl_cons, ih, List.mem_append, List.mem_map]
      simp only [List.mem_cons]
      constructor
      · rintro ((hx | ⟨t, ht, rfl⟩) | ⟨e2, he2, t, ht, hx⟩)
        · exact Or.inl hx
        · exact Or.inr ⟨e, Or.inl rfl, t, ht, rfl⟩
        · exact Or.inr ⟨e2, Or.inr he2, t, ht, hx⟩
      · rintro (hx | ⟨e2, (rfl | he2), t, ht, hx⟩)
        · exact Or.inl (Or.inl hx)
        · exact Or.inl (Or.inr ⟨t, ht, hx.symm⟩)
        · exact Or.inr ⟨e2, he2, t, ht, hx⟩
  simpa [wfgLinksOf] using hgen wfg []

/-! ### Claim C6: endpoint resolution and node-id uniqueness -/

/-- C6 (counterexample): the RAG build accepts — without error — a
snapshot whose allocation key references undeclared nodes, producing a
link whose endpoints resolve to no node; and a duplicated pid in
`processes` produces two nodes with the same id. -/
theorem graph_integrity_cex :
    (¬ ∀ l ∈ (buildRAGGraph ⟨[], [], [("1_A", 1)], []⟩).links,
        ∃ n ∈ (buildRAGGraph ⟨[], [], [("1_A", 1)], []⟩).nodes,
          n.id = l.source) ∧
    ¬ ((buildRAGGraph ⟨[1, 1], [], [], []⟩).nodes.map Node.id).Nodup := by
  decide

/-- C6 (amended): the invariant holds for consistent inputs.  RAG: if
process pids and resource ids are duplicate-free and every positive
allocation/request key splits into the rendered pid of a declared
process and the id of a declared resource, then every link endpoint is
the id of a node of the graph and node ids are pairwise distinct.  WFG
(either mode — the authoritative adjacency or the derived one): if every
adjacency key is the canonical rendering of an integer, then every
wait-for link endpoint is the id of a node, and node ids are pairwise
distinct (the latter unconditionally). -/
theorem graph_integrity (s : Snapshot)
    (hpn : s.processes.Nodup) (hrn : (s.resources.map Prod.fst).Nodup)
    (ha : ∀ e ∈ s.allocation, 0 < e.2 →
      ∃ pid ∈ s.processes, ∃ r ∈ s.resources,
        splitKey e.1 = (intStr pid, some r.1))
    (hq : ∀ e ∈ s.request, 0 < e.2 →
      ∃ pid ∈ s.processes, ∃ r ∈ s.resources,
        splitKey e.1 = (intStr pid, some r.1)) :
    ((∀ l ∈ (buildRAGGraph s).links,
      (∃ n ∈ (buildRAGGraph s).nodes, n.id = l.source) ∧
      (∃ n ∈ (buildRAGGraph s).nodes, n.id = l.target)) ∧
    ((buildRAGGraph s).nodes.map Node.id).Nodup) ∧
    ∀ (wfg : List (String × List (Option Int))) (cycles : List (List Int)),
      (∀ e ∈ wfg, ∃ k : Int, e.1 = intStr k) →
      ((∀ l ∈ (buildWFGGraph wfg cycles).links,
        (∃ n ∈ (buildWFGGraph wfg cycles).nodes, n.id = l.source) ∧
        (∃ n ∈ (buildWFGGraph wfg cycles).nodes, n.id = l.target)) ∧
      ((buildWFGGraph wfg cycles).nodes.map Node.id).Nodup) := by
  constructor
  · constructor
    · intro l hl
      rcases (mem_ragLinks s l).mp hl with ⟨e, he, h0, rfl⟩ | ⟨e, he, h0, rfl⟩
      · obtain ⟨pid, hp, r, hr, hsplit⟩ := ha e he h0
        have hpnode := (mem_ragNodes s
          { id := "P" ++ intStr pid, type := NodeType.process,
            pid := some pid }).mpr (Or.inl ⟨pid, hp, rfl⟩)
        have hrnode := (mem_ragNodes s
          { id := "R" ++ r.1, type := NodeType.resource, rid := some r.1,
            total := some r.2 }).mpr (Or.inr ⟨r, hr, rfl⟩)
        refine ⟨⟨_, hpnode, ?_⟩, ⟨_, hrnode, ?_⟩⟩
        · rw [hsplit]
        · rw [hsplit]
          rfl
      · obtain ⟨pid, hp, r, hr, hsplit⟩ := hq e he h0
        have hpnode := (mem_ragNodes s
          { id := "P" ++ intStr pid, type := NodeType.process,
            pid := some pid }).mpr (Or.inl ⟨pid, hp, rfl⟩)
        have hrnode := (mem_ragNodes s
          { id := "R" ++ r.1, type := NodeType.resource, rid := some r.1,
            total := some r.2 }).mpr (Or.inr ⟨r, hr, rfl⟩)
        refine ⟨⟨_, hrnode, ?_⟩, ⟨_, hpnode, ?_⟩⟩
        · rw [hsplit]
          rfl
        · rw [hsplit]
    · have hnodes : (buildRAGGraph s).nodes =
          s.processes.map (fun pid =>
            { id := "P" ++ intStr pid, type := NodeType.process,
              pid := some pid : Node }) ++
          s.resources.map (fun e =>
            { id := "R" ++ e.1, type := NodeType.resource,
              rid := some e.1, total := some e.2 : Node }) := rfl
      rw [hnodes, List.map_append, List.map_map, List.map_map]
      rw [List.nodup_append]
      refine ⟨?_, ?_, ?_⟩
      · exact hpn.map (fun x y h => intStr_injective
          (string_append_left_cancel (p := "P") h))
      · have : (Node.id ∘ fun e : String × Int =>
            ({ id := "R" ++ e.1, type := NodeType.resource,
               rid := some e.1, total := some e.2 } : Node)) =
            (fun x : String => "R" ++ x) ∘ Prod.fst := rfl
        rw [this, ← List.map_map]
        exact hrn.map (prefix_append_injective "R")
      · intro x hx hy
        rw [List.mem_map] at hx hy
        obtain ⟨pid, _, hx2⟩ := hx
        obtain ⟨r, _, hy2⟩ := hy
        exact P_ne_R (intStr pid) r.1 (hx2.trans hy2.symm)
  · intro wfg cycles hcanon
    constructor
    · intro l hl
      have hl2 : l ∈ wfgLinksOf wfg := hl
      rcases (mem_wfgLinksOf wfg l).mp hl2 with ⟨e, he, t, ht, rfl⟩
      constructor
      · obtain ⟨k, hk⟩ := hcanon e he
        refine ⟨_, List.mem_map_of_mem _
          ((mem_allPidsOf wfg _).mpr ⟨e, he, Or.inl rfl⟩), ?_⟩
        show "P" ++ jsNumStr (parseIntJS e.1) = "P" ++ e.1
        rw [hk, parseIntJS_intStr]
        rfl
      · refine ⟨_, List.mem_map_of_mem _
          ((mem_allPidsOf wfg _).mpr ⟨e, he, Or.inr ht⟩), ?_⟩
        rfl
    · show (((allPidsOf wfg).map _).map Node.id).Nodup
      rw [List.map_map]
      exact (nodup_allPidsOf wfg).map (fun x y h => jsNumStr_injective
        (string_append_left_cancel (p := "P") h))

/-- C6 (witness): the amended theorem at a consistent concrete snapshot
and a canonical concrete adjacency. -/
theorem graph_integrity_witness :
    ((buildRAGGraph ⟨[1, 2], [("A", 1)], [("1_A", 1)], [("2_A", 1)]⟩).nodes.map
      Node.id).Nodup ∧
    ((buildWFGGraph [("1", [some 2])] []).nodes.map Node.id).Nodup := by
  have h := graph_integrity ⟨[1, 2], [("A", 1)], [("1_A", 1)], [("2_A", 1)]⟩
    (by decide) (by decide) (by decide) (by decide)
  refine ⟨h.1.2, (h.2 [("1", [some 2])] [] ?_).2⟩
  intro e he
  rw [List.mem_singleton] at he
  subst he
  exact ⟨1, by decide⟩

/-! ### Claim C7: edge direction typing -/

/-- C7 (counterexample): a request key referencing undeclared nodes
produces a request edge whose source is the id of no node at all — in
particular not of a resource node. -/
theorem edge_typing_cex :
    ¬ (∀ l ∈ (buildRAGGraph ⟨[], [], [], [("1_A", 1)]⟩).links,
        l.type = EdgeType.request →
        ∃ n ∈ (buildRAGGraph ⟨[], [], [], [("1_A", 1)]⟩).nodes,
          n.id = l.source ∧ n.type = NodeType.resource) := by
  decide

/-- C7 (amended): every RAG link is an allocation or a request edge;
every allocation edge runs from a `P`-prefixed source to an
`R`-prefixed target and every node its endpoints resolve to has the
matching type (process source, resource target); request edges are the
exact reverse; every link of a WFG graph is a wait-for edge and every
node of a WFG graph is a process node, so wait-for endpoints resolve
only to process nodes.  (Endpoints may resolve to no node when a key
references an undeclared process or resource.) -/
theorem edge_direction_typing :
    (∀ s : Snapshot, ∀ l ∈ (buildRAGGraph s).links,
      (l.type = EdgeType.allocation ∨ l.type = EdgeType.request) ∧
      (l.type = EdgeType.allocation →
        (∃ x, l.source = "P" ++ x) ∧ (∃ y, l.target = "R" ++ y) ∧
        ∀ n ∈ (buildRAGGraph s).nodes,
          (n.id = l.source → n.type = NodeType.process) ∧
          (n.id = l.target → n.type = NodeType.resource)) ∧
      (l.type = EdgeType.request →
        (∃ y, l.source = "R" ++ y) ∧ (∃ x, l.target = "P" ++ x) ∧
        ∀ n ∈ (buildRAGGraph s).nodes,
          (n.id = l.source → n.type = NodeType.resource) ∧
          (n.id = l.target → n.type = NodeType.process))) ∧
    (∀ (wfg : List (String × List (Option Int))) (cycles : List (List Int)),
      (∀ l ∈ (buildWFGGraph wfg cycles).links, l.type = EdgeType.waitFor) ∧
      ∀ n ∈ (buildWFGGraph wfg cycles).nodes, n.type = NodeType.process) := by
  constructor
  · intro s l hl
    rcases (mem_ragLinks s l).mp hl with ⟨e, he, h0, rfl⟩ | ⟨e, he, h0, rfl⟩
    · refine ⟨Or.inl rfl, fun _ => ⟨⟨_, rfl⟩, ⟨_, rfl⟩, ?_⟩,
        fun hty => absurd hty (by simp)⟩
      intro n hn
      rcases (mem_ragNodes s n).mp hn with ⟨pid, _, rfl⟩ | ⟨r, _, rfl⟩
      · exact ⟨fun _ => rfl, fun hid => absurd hid (P_ne_R _ _)⟩
      · exact ⟨fun hid => absurd hid.symm (P_ne_R _ _), fun _ => rfl⟩
    · refine ⟨Or.inr rfl, fun hty => absurd hty (by simp),
        fun _ => ⟨⟨_, rfl⟩, ⟨_, rfl⟩, ?_⟩⟩
      intro n hn
      rcases (mem_ragNodes s n).mp hn with ⟨pid, _, rfl⟩ | ⟨r, _, rfl⟩
      · exact ⟨fun hid => absurd hid (P_ne_R _ _), fun _ => rfl⟩
      · exact ⟨fun _ => rfl, fun hid => absurd hid.symm (P_ne_R _ _)⟩
  · intro wfg cycles
    constructor
    · intro l hl
      have hl2 : l ∈ wfgLinksOf wfg := hl
      rcases (mem_wfgLinksOf wfg l).mp hl2 with ⟨e, _, t, _, rfl⟩
      rfl
    · intro n hn
      obtain ⟨pid, _, rfl⟩ := List.mem_map.mp hn
      rfl

/-- C7 (witness): the RAG part of the amended theorem applied to the
allocation edge of a concrete one-edge snapshot. -/
theorem edge_direction_typing_witness :
    ∃ x,
      ({ source := "P1", target := "RA", type := EdgeType.allocation,
         weight := some 1, id := "alloc_1_A" : Link }).source = "P" ++ x := by
  have h := (edge_direction_typing.1 ⟨[1], [("A", 2)], [("1_A", 1)], []⟩
    { source := "P1", target := "RA", type := EdgeType.allocation,
      weight := some 1, id := "alloc_1_A" } (by decide))
  exact (h.2.1 rfl).1

/-! ### Claim C8: the derived-WFG blocking rule -/

/-- C8 (counterexample): request key `"1_a_x"` and allocation key
`"2_a_y"` name different resources under the spec's split-on-first-`_`
contract (`a_x` vs `a_y`), so the claim demands no wait-for edge; the
build compares only the fragments between the first and second
underscore (`a` = `a`) and emits the edge P1 -> P2. -/
theorem derived_wfg_fragment_cex :
    wfgHasEdge
      (buildWFGFromSnapshot ⟨[], [], [("2_a_y", 1)], [("1_a_x", 1)]⟩) 1 2 ∧
    ¬ specWaitsFor ⟨[], [], [("2_a_y", 1)], [("1_a_x", 1)]⟩ 1 2 := by
  refine ⟨by decide, ?_⟩
  rintro ⟨rid, need, hreq, hneed, cnt, halloc, hcnt, hne⟩
  rw [List.mem_singleton] at hreq
  have hkey : specKey 1 rid = "1_a_x" := congrArg Prod.fst hreq
  have hdata := congrArg String.data hkey
  rw [show specKey 1 rid = intStr 1 ++ "_" ++ rid from rfl,
    data_key_single, show (intStr 1).data = ['1'] from by decide,
    show ("1_a_x" : String).data = ['1', '_', 'a', '_', 'x'] from
      by decide] at hdata
  have hrid : rid = "a_x" := by
    apply string_ext
    have h2 : rid.data = ['a', '_', 'x'] :=
      List.tail_eq_of_cons_eq (List.tail_eq_of_cons_eq hdata)
    rw [h2]
  subst hrid
  rw [List.mem_singleton] at halloc
  have hk2 : specKey 2 "a_x" = "2_a_y" := congrArg Prod.fst halloc
  exact absurd hk2 (by decide)

theorem wfgHasEdge_pushBlockers
    (edges : List (Option Int × List (Option Int)))
    (pid : Option Int) (bs : List (Option Int)) (p q : Int) :
    wfgHasEdge (pushBlockers edges pid bs) p q ↔
      wfgHasEdge edges p q ∨ (pid = some p ∧ some q ∈ bs) := by
  unfold pushBlockers wfgHasEdge
  split
  · rename_i hany
    constructor
    · rintro ⟨e2, he2, hp, hq⟩
      rw [List.mem_map] at he2
      obtain ⟨e0, he0, heq⟩ := he2
      by_cases hc : e0.1 = pid
      · rw [if_pos hc] at heq
        subst heq
        rcases List.mem_append.mp hq with hq2 | hq2
        · exact Or.inl ⟨e0, he0, hp, hq2⟩
        · exact Or.inr ⟨by rw [← hc]; exact hp, hq2⟩
      · rw [if_neg hc] at heq
        subst heq
        exact Or.inl ⟨e0, he0, hp, hq⟩
    · rintro (⟨e0, he0, hp, hq⟩ | ⟨rfl, hq⟩)
      · by_cases hc : e0.1 = pid
        · refine ⟨(e0.1, e0.2 ++ bs), List.mem_map.mpr ⟨e0, he0, ?_⟩, hp,
            List.mem_append_left _ hq⟩
          rw [if_pos hc]
        · exact ⟨e0, List.mem_map.mpr ⟨e0, he0, by rw [if_neg hc]⟩, hp, hq⟩
      · obtain ⟨e0, he0, hc⟩ := List.any_eq_true.mp hany
        rw [decide_eq_true_eq] at hc
        refine ⟨(e0.1, e0.2 ++ bs), List.mem_map.mpr ⟨e0, he0, ?_⟩, hc,
          List.mem_append_right _ hq⟩
        rw [if_pos hc]
  · rename_i hany
    constructor
    · rintro ⟨e2, he2, hp, hq⟩
      rcases List.mem_append.mp he2 with he3 | he3
      · exact Or.inl ⟨e2, he3, hp, hq⟩
      · rw [List.mem_singleton] at he3
        subst he3
        exact Or.inr ⟨hp, hq⟩
    · rintro (⟨e0, he0, hp, hq⟩ | ⟨rfl, hq⟩)
      · exact ⟨e0, List.mem_append_left _ he0, hp, hq⟩
      · exact ⟨(some p, bs), List.mem_append_right _ (List.mem_singleton.mpr
          rfl), rfl, hq⟩

theorem mem_blockersFor (allocation : List (String × Int))
    (rid : Option String) (pid : Option Int) (x : Option Int) :
    x ∈ blockersFor allocation rid pid ↔
      ∃ a ∈ allocation, (splitKey a.1).2 = rid ∧ 0 < a.2 ∧
        jsNeq (parseIntJS (splitKey a.1).1) pid = true ∧
        parseIntJS (splitKey a.1).1 = x := by
  unfold blockersFor
  rw [List.mem_filterMap]
  constructor
  · rintro ⟨a, ha, hf⟩
    by_cases hc : (splitKey a.1).2 = rid ∧ a.2 > 0 ∧
        jsNeq (parseIntJS (splitKey a.1).1) pid = true
    · rw [if_pos hc] at hf
      exact ⟨a, ha, hc.1, hc.2.1, hc.2.2, Option.some.injEq _ _ ▸ hf⟩
    · rw [if_neg hc] at hf
      exact absurd hf (by simp)
  · rintro ⟨a, ha, h1, h2, h3, h4⟩
    refine ⟨a, ha, ?_⟩
    rw [if_pos ⟨h1, h2, h3⟩, h4]

theorem wfgHasEdge_fold (alloc : List (String × Int)) (p q : Int) :
    ∀ (reqs : List (String × Int))
      (init : List (Option Int × List (Option Int))),
      wfgHasEdge (reqs.foldl (wfgStep alloc) init) p q ↔
        wfgHasEdge init p q ∨ ∃ e ∈ reqs, ¬ e.2 ≤ 0 ∧
          parseIntJS (splitKey e.1).1 = some p ∧
          some q ∈ blockersFor alloc (splitKey e.1).2
            (parseIntJS (splitKey e.1).1) := by
  intro reqs
  induction reqs with
  | nil => simp
  | cons e t ih =>
    intro init
    rw [List.foldl_cons, ih]
    have hstep : wfgStep alloc init e =
        if e.2 ≤ 0 then init
        else
          if blockersFor alloc (splitKey e.1).2
              (parseIntJS (splitKey e.1).1) = [] then init
          else pushBlockers init (parseIntJS (splitKey e.1).1)
            (blockersFor alloc (splitKey e.1).2
              (parseIntJS (splitKey e.1).1)) := rfl
    rw [hstep]
    by_cases h0 : e.2 ≤ 0
    · rw [if_pos h0]
      simp only [List.mem_cons]
      constructor
      · rintro (hx | ⟨e2, he2, hx⟩)
        · exact Or.inl hx
        · exact Or.inr ⟨e2, Or.inr he2, hx⟩
      · rintro (hx | ⟨e2, (rfl | he2), hx⟩)
        · exact Or.inl hx
        · exact absurd h0 hx.1
        · exact Or.inr ⟨e2, he2, hx⟩
    · rw [if_neg h0]
      by_cases hb : blockersFor alloc (splitKey e.1).2
          (parseIntJS (splitKey e.1).1) = []
      · rw [if_pos hb]
        simp only [List.mem_cons]
        constructor
        · rintro (hx | ⟨e2, he2, hx⟩)
          · exact Or.inl hx
          · exact Or.inr ⟨e2, Or.inr he2, hx⟩
        · rintro (hx | ⟨e2, (rfl | he2), hx⟩)
          · exact Or.inl hx
          · exact absurd hx.2.2 (by rw [hb]; simp)
          · exact Or.inr ⟨e2, he2, hx⟩
      · rw [if_neg hb, wfgHasEdge_pushBlockers]
        simp only [List.mem_cons]
        constructor
        · rintro ((hx | ⟨hpid, hqm⟩) | ⟨e2, he2, hx⟩)
          · exact Or.inl hx
          · exact Or.inr ⟨e, Or.inl rfl, h0, hpid, hqm⟩
          · exact Or.inr ⟨e2, Or.inr he2, hx⟩
        · rintro (hx | ⟨e2, (rfl | he2), hx⟩)
          · exact Or.inl (Or.inl hx)
          · exact Or.inl (Or.inr ⟨hx.2.1, hx.2.2⟩)
          · exact Or.inr ⟨e2, he2, hx⟩

theorem wfgHasEdge_build (s : Snapshot) (p q : Int) :
    wfgHasEdge (buildWFGFromSnapshot s) p q ↔
      ∃ e ∈ s.request, ¬ e.2 ≤ 0 ∧
        parseIntJS (splitKey e.1).1 = some p ∧
        some q ∈ blockersFor s.allocation (splitKey e.1).2
          (parseIntJS (splitKey e.1).1) := by
  rw [show buildWFGFromSnapshot s =
    s.request.foldl (wfgStep s.allocation) [] from rfl, wfgHasEdge_fold]
  simp [wfgHasEdge]

/-- C8 (amended): for snapshots whose allocation/request keys all have
the single-underscore form `{integer}_{rid}` with an `_`-free resource
id, the derived WFG contains a wait-for edge from `p` to `q` exactly
when some request key `(p, rid)` has positive count and some allocation
key `(q, rid)` on the same resource has positive count with `q ≠ p`; in
particular request `{"1_A": 1}` with allocation `{"2_A": 1}` yields the
edge P1 -> P2, and a process holding and requesting the same resource
never yields a self-loop edge.  (For resource ids that themselves
contain `_` the build compares only the fragment before the second
underscore, so the rule as claimed fails — see the counterexample.) -/
theorem derived_wfg_blocking_rule (s : Snapshot)
    (ha : ∀ e ∈ s.allocation, ∃ k : Int, ∃ rid : String,
      e.1 = specKey k rid ∧ '_' ∉ rid.data)
    (hq : ∀ e ∈ s.request, ∃ k : Int, ∃ rid : String,
      e.1 = specKey k rid ∧ '_' ∉ rid.data)
    (p q : Int) :
    wfgHasEdge (buildWFGFromSnapshot s) p q ↔ specWaitsFor s p q := by
  rw [wfgHasEdge_build]
  constructor
  · rintro ⟨e, he, hpos, hparse, hblock⟩
    obtain ⟨k, rid, hk, hridc⟩ := hq e he
    have hsplit : splitKey e.1 = (intStr k, some rid) := by
      rw [hk]
      exact splitKey_single _ _ (underscore_not_mem_intStr k) hridc
    rw [hsplit] at hparse hblock
    dsimp only at hparse hblock
    rw [parseIntJS_intStr] at hparse hblock
    have hkp : k = p := Option.some.inj hparse
    rw [hkp] at hk
    obtain ⟨a, hamem, harid, hapos, haneq, haparse⟩ :=
      (mem_blockersFor _ _ _ _).mp hblock
    obtain ⟨k2, rid2, hk2, hrid2c⟩ := ha a hamem
    have hsplit2 : splitKey a.1 = (intStr k2, some rid2) := by
      rw [hk2]
      exact splitKey_single _ _ (underscore_not_mem_intStr k2) hrid2c
    rw [hsplit2] at harid haparse
    dsimp only at harid haparse
    rw [parseIntJS_intStr] at haparse
    have hrideq : rid2 = rid := Option.some.inj harid
    have hk2q : k2 = q := Option.some.inj haparse
    have hneq0 : k2 ≠ k := by
      rw [hsplit2] at haneq
      dsimp only at haneq
      rw [parseIntJS_intStr] at haneq
      simpa [jsNeq] using haneq
    have hneq : q ≠ p := by
      rw [← hk2q, ← hkp]
      exact hneq0
    have he2 : (specKey p rid, e.2) ∈ s.request := by
      rw [← hk, Prod.mk.eta]
      exact he
    have ha2 : (specKey q rid, a.2) ∈ s.allocation := by
      rw [← hk2q, ← hrideq, ← hk2, Prod.mk.eta]
      exact hamem
    exact ⟨rid, e.2, he2, by omega, a.2, ha2, by omega, hneq⟩
  · rintro ⟨rid, need, hreq, hneed, cnt, halloc, hcnt, hne⟩
    obtain ⟨k, rid2, hk, hrid2c⟩ := hq (specKey p rid, need) hreq
    have hdata := congrArg String.data hk
    rw [show specKey p rid = intStr p ++ "_" ++ rid from rfl,
      show specKey k rid2 = intStr k ++ "_" ++ rid2 from rfl,
      data_key_single, data_key_single] at hdata
    obtain ⟨hpk, hrr⟩ := append_underscore_inj _ _ _ _
      (underscore_not_mem_intStr p) (underscore_not_mem_intStr k) hdata
    have hridc : '_' ∉ rid.data := by
      rw [hrr]
      exact hrid2c
    have hsplit : splitKey (specKey p rid) = (intStr p, some rid) :=
      splitKey_single _ _ (underscore_not_mem_intStr p) hridc
    refine ⟨(specKey p rid, need), hreq, by omega, ?_, ?_⟩
    · rw [hsplit]
      dsimp only
      rw [parseIntJS_intStr]
    · rw [hsplit]
      dsimp only
      rw [parseIntJS_intStr]
      apply (mem_blockersFor _ _ _ _).mpr
      have hsplit2 : splitKey (specKey q rid) = (intStr q, some rid) :=
        splitKey_single _ _ (underscore_not_mem_intStr q) hridc
      refine ⟨(specKey q rid, cnt), halloc, ?_, hcnt, ?_, ?_⟩
      · rw [hsplit2]
      · rw [hsplit2]
        dsimp only
        rw [parseIntJS_intStr]
        simp [jsNeq, hne]
      · rw [hsplit2]
        dsimp only
        rw [parseIntJS_intStr]

/-- C8 (witness): the amended theorem at the claim's own example —
request `{"1_A": 1}`, allocation `{"2_A": 1}` — yields the edge
P1 -> P2. -/
theorem derived_wfg_blocking_rule_witness :
    wfgHasEdge (buildWFGFromSnapshot ⟨[], [], [("2_A", 1)], [("1_A", 1)]⟩)
      1 2 := by
  have h := derived_wfg_blocking_rule ⟨[], [], [("2_A", 1)], [("1_A", 1)]⟩
    (by
      intro e he
      rw [List.mem_singleton] at he
      subst he
      exact ⟨2, "A", by decide, by decide⟩)
    (by
      intro e he
      rw [List.mem_singleton] at he
      subst he
      exact ⟨1, "A", by decide, by decide⟩)
    1 2
  exact h.mpr ⟨"A", 1, by decide, by decide, 1, by decide, by decide,
    by decide⟩

/-! ### Claim C9: diff order, conditions, emptiness -/

theorem mem_jsSetOfList (l : List Int) (x : Int) :
    x ∈ jsSetOfList l ↔ x ∈ l := by
  unfold jsSetOfList
  rw [mem_foldl_jsSetAdd]
  simp

theorem string_append_right_cancel {a b c : String} (h : a ++ c = b ++ c) :
    a = b := by
  have h2 := congrArg String.data h
  rw [string_data_append, string_data_append] at h2
  exact string_ext _ _ (List.append_cancel_right h2)

theorem text_pid_inj (pre post : String) {x y : Int}
    (h : pre ++ intStr x ++ post = pre ++ intStr y ++ post) : x = y := by
  have h2 := congrArg String.data h
  rw [string_data_append, string_data_append, string_data_append,
    string_data_append] at h2
  exact intStr_injective (string_ext _ _
    (List.append_cancel_left (List.append_cancel_right h2)))

theorem mem_procAddedEntries (a b : SavedSnapshot) (pid : Int) :
    ({ type := DiffType.added, icon := "fas fa-plus-circle",
       text := "Process P" ++ intStr pid ++ " was added" : DiffEntry } ∈
      procAddedEntries a b) ↔
      pid ∈ b.data.processes ∧ pid ∉ a.data.processes := by
  unfold procAddedEntries
  rw [List.mem_map]
  constructor
  · rintro ⟨pid2, hp2, heq⟩
    rw [List.mem_filter] at hp2
    have htext : "Process P" ++ intStr pid2 ++ " was added" =
        "Process P" ++ intStr pid ++ " was added" :=
      congrArg DiffEntry.text heq
    have hp : pid2 = pid := text_pid_inj _ _ htext
    subst hp
    refine ⟨(mem_jsSetOfList _ _).mp hp2.1, ?_⟩
    have hn := hp2.2
    rw [decide_eq_true_eq] at hn
    exact fun hmem => hn ((mem_jsSetOfList _ _).mpr hmem)
  · rintro ⟨hb, hna⟩
    refine ⟨pid, ?_, rfl⟩
    rw [List.mem_filter]
    refine ⟨(mem_jsSetOfList _ _).mpr hb, ?_⟩
    rw [decide_eq_true_eq]
    exact fun hmem => hna ((mem_jsSetOfList _ _).mp hmem)

theorem mem_procRemovedEntries (a b : SavedSnapshot) (pid : Int) :
    ({ type := DiffType.removed, icon := "fas fa-minus-circle",
       text := "Process P" ++ intStr pid ++ " was removed" : DiffEntry } ∈
      procRemovedEntries a b) ↔
      pid ∈ a.data.processes ∧ pid ∉ b.data.processes := by
  unfold procRemovedEntries
  rw [List.mem_map]
  constructor
  · rintro ⟨pid2, hp2, heq⟩
    rw [List.mem_filter] at hp2
    have htext : "Process P" ++ intStr pid2 ++ " was removed" =
        "Process P" ++ intStr pid ++ " was removed" :=
      congrArg DiffEntry.text heq
    have hp : pid2 = pid := text_pid_inj _ _ htext
    subst hp
    refine ⟨(mem_jsSetOfList _ _).mp hp2.1, ?_⟩
    have hn := hp2.2
    rw [decide_eq_true_eq] at hn
    exact fun hmem => hn ((mem_jsSetOfList _ _).mpr hmem)
  · rintro ⟨hb, hna⟩
    refine ⟨pid, ?_, rfl⟩
    rw [List.mem_filter]
    refine ⟨(mem_jsSetOfList _ _).mpr hb, ?_⟩
    rw [decide_eq_true_eq]
    exact fun hmem => hna ((mem_jsSetOfList _ _).mp hmem)

/-- C9: the differ emits, in this fixed order, the process additions
(one per pid of B missing from A), the process removals (one per pid of
A missing from B), at most one cycle-count entry (present exactly when
the cycle list lengths differ), at most one allocation-key-count entry
and at most one request-key-count entry (present exactly when the
respective key counts differ); and when no condition holds — in
particular when B is a deep copy of A — the result is empty. -/
theorem diff_order_conditions (a b : SavedSnapshot) :
    ∃ adds rems cyc alloc req,
      displayDifferences a b = adds ++ rems ++ cyc ++ alloc ++ req ∧
      (∀ pid : Int,
        ({ type := DiffType.added, icon := "fas fa-plus-circle",
           text := "Process P" ++ intStr pid ++ " was added" : DiffEntry } ∈
          adds ↔ pid ∈ b.data.processes ∧ pid ∉ a.data.processes)) ∧
      (∀ e ∈ adds, e.type = DiffType.added) ∧
      (∀ pid : Int,
        ({ type := DiffType.removed, icon := "fas fa-minus-circle",
           text := "Process P" ++ intStr pid ++ " was removed" :
             DiffEntry } ∈ rems ↔
          pid ∈ a.data.processes ∧ pid ∉ b.data.processes)) ∧
      (∀ e ∈ rems, e.type = DiffType.removed) ∧
      (cyc ≠ [] ↔ a.cycles.length ≠ b.cycles.length) ∧ cyc.length ≤ 1 ∧
      (alloc ≠ [] ↔
        a.data.allocation.length ≠ b.data.allocation.length) ∧
      alloc.length ≤ 1 ∧ (∀ e ∈ alloc, e.type = DiffType.changed) ∧
      (req ≠ [] ↔ a.data.request.length ≠ b.data.request.length) ∧
      req.length ≤ 1 ∧ (∀ e ∈ req, e.type = DiffType.changed) ∧
      ((∀ pid : Int, pid ∈ a.data.processes ↔ pid ∈ b.data.processes) →
        a.cycles.length = b.cycles.length →
        a.data.allocation.length = b.data.allocation.length →
        a.data.request.length = b.data.request.length →
        displayDifferences a b = []) := by
  refine ⟨procAddedEntries a b, procRemovedEntries a b,
    cycleChangeEntries a b, allocChangeEntries a b, reqChangeEntries a b,
    rfl, mem_procAddedEntries a b, ?_, mem_procRemovedEntries a b, ?_,
    ?_, ?_, ?_, ?_, ?_, ?_, ?_, ?_, ?_⟩
  · intro e he
    obtain ⟨pid, _, rfl⟩ := List.mem_map.mp he
    rfl
  · intro e he
    obtain ⟨pid, _, rfl⟩ := List.mem_map.mp he
    rfl
  · simp only [cycleChangeEntries]
    split
    · rename_i h
      simpa using h
    · rename_i h
      simpa using h
  · simp only [cycleChangeEntries]
    split <;> simp
  · simp only [allocChangeEntries]
    split
    · rename_i h
      simpa using h
    · rename_i h
      simpa using h
  · simp only [allocChangeEntries]
    split <;> simp
  · intro e he
    simp only [allocChangeEntries] at he
    split at he
    · rw [List.mem_singleton] at he
      subst he
      rfl
    · exact absurd he (List.not_mem_nil e)
  · simp only [reqChangeEntries]
    split
    · rename_i h
      simpa using h
    · rename_i h
      simpa using h
  · simp only [reqChangeEntries]
    split <;> simp
  · intro e he
    simp only [reqChangeEntries] at he
    split at he
    · rw [List.mem_singleton] at he
      subst he
      rfl
    · exact absurd he (List.not_mem_nil e)
  · intro hps hc hal hr
    unfold displayDifferences
    have h1 : procAddedEntries a b = [] := by
      unfold procAddedEntries
      rw [List.map_eq_nil_iff, List.filter_eq_nil_iff]
      intro pid hpid
      rw [decide_eq_true_eq, not_not]
      exact (mem_jsSetOfList _ _).mpr
        ((hps pid).mpr ((mem_jsSetOfList _ _).mp hpid))
    have h2 : procRemovedEntries a b = [] := by
      unfold procRemovedEntries
      rw [List.map_eq_nil_iff, List.filter_eq_nil_iff]
      intro pid hpid
      rw [decide_eq_true_eq, not_not]
      exact (mem_jsSetOfList _ _).mpr
        ((hps pid).mp ((mem_jsSetOfList _ _).mp hpid))
    have h3 : cycleChangeEntries a b = [] := by
      unfold cycleChangeEntries
      rw [if_neg (by simp [hc])]
    have h4 : allocChangeEntries a b = [] := by
      unfold allocChangeEntries
      rw [if_neg (by simp [hal])]
    have h5 : reqChangeEntries a b = [] := by
      unfold reqChangeEntries
      rw [if_neg (by simp [hr])]
    rw [h1, h2, h3, h4, h5]
    rfl

/-- C9 (witness): comparing a saved snapshot to a structural copy of
itself yields the empty sequence, by the final clause of the theorem. -/
theorem diff_order_conditions_witness :
    displayDifferences ⟨⟨[1], [("A", 1)], [("1_A", 1)], []⟩, [[1]]⟩
      ⟨⟨[1], [("A", 1)], [("1_A", 1)], []⟩, [[1]]⟩ = [] := by
  obtain ⟨adds, rems, cyc, alloc, req, heq, h⟩ := diff_order_conditions
    ⟨⟨[1], [("A", 1)], [("1_A", 1)], []⟩, [[1]]⟩
    ⟨⟨[1], [("A", 1)], [("1_A", 1)], []⟩, [[1]]⟩
  exact h.2.2.2.2.2.2.2.2.2.2.2.2 (fun pid => Iff.rfl) rfl rfl rfl

/-! ### Claim C10: derived-WFG entries exist only with blockers -/

theorem pushBlockers_mem (edges : List (Option Int × List (Option Int)))
    (pid : Option Int) (bs : List (Option Int))
    (en : Option Int × List (Option Int))
    (hen : en ∈ pushBlockers edges pid bs) :
    (∃ e0 ∈ edges, en = e0) ∨
    (∃ e0 ∈ edges, e0.1 = pid ∧ en = (e0.1, e0.2 ++ bs)) ∨
    en = (pid, bs) := by
  unfold pushBlockers at hen
  split at hen
  · rw [List.mem_map] at hen
    obtain ⟨e0, he0, heq⟩ := hen
    by_cases hc : e0.1 = pid
    · rw [if_pos hc] at heq
      exact Or.inr (Or.inl ⟨e0, he0, hc, heq.symm⟩)
    · rw [if_neg hc] at heq
      exact Or.inl ⟨e0, he0, heq.symm⟩
  · rcases List.mem_append.mp hen with h | h
    · exact Or.inl ⟨_, h, rfl⟩
    · rw [List.mem_singleton] at h
      exact Or.inr (Or.inr h)

/-- C10: every entry of the derived `edges` object has a nonempty target
list, and its key is the parsed pid of some positive request key that
found at least one blocker — a requesting process all of whose positive
requests have no blocker is entirely absent from the mapping. -/
theorem derived_wfg_entries_have_blockers (s : Snapshot) :
    ∀ en ∈ buildWFGFromSnapshot s, en.2 ≠ [] ∧
      ∃ r ∈ s.request, ¬ r.2 ≤ 0 ∧
        parseIntJS (splitKey r.1).1 = en.1 ∧
        blockersFor s.allocation (splitKey r.1).2 en.1 ≠ [] := by
  have hgen : ∀ (reqs : List (String × Int)),
      (∀ x ∈ reqs, x ∈ s.request) →
      ∀ (init : List (Option Int × List (Option Int))),
      (∀ en ∈ init, en.2 ≠ [] ∧ ∃ r ∈ s.request, ¬ r.2 ≤ 0 ∧
        parseIntJS (splitKey r.1).1 = en.1 ∧
        blockersFor s.allocation (splitKey r.1).2 en.1 ≠ []) →
      ∀ en ∈ reqs.foldl (wfgStep s.allocation) init, en.2 ≠ [] ∧
        ∃ r ∈ s.request, ¬ r.2 ≤ 0 ∧
          parseIntJS (splitKey r.1).1 = en.1 ∧
          blockersFor s.allocation (splitKey r.1).2 en.1 ≠ [] := by
    intro reqs
    induction reqs with
    | nil => exact fun _ init h => h
    | cons e t ih =>
      intro hsub init hinit
      rw [List.foldl_cons]
      apply ih (fun x hx => hsub x (List.mem_cons_of_mem _ hx))
      intro en hen
      have hstep : wfgStep s.allocation init e =
          if e.2 ≤ 0 then init
          else
            if blockersFor s.allocation (splitKey e.1).2
                (parseIntJS (splitKey e.1).1) = [] then init
            else pushBlockers init (parseIntJS (splitKey e.1).1)
              (blockersFor s.allocation (splitKey e.1).2
                (parseIntJS (splitKey e.1).1)) := rfl
      rw [hstep] at hen
      by_cases h0 : e.2 ≤ 0
      · rw [if_pos h0] at hen
        exact hinit en hen
      · rw [if_neg h0] at hen
        by_cases hb : blockersFor s.allocation (splitKey e.1).2
            (parseIntJS (splitKey e.1).1) = []
        · rw [if_pos hb] at hen
          exact hinit en hen
        · rw [if_neg hb] at hen
          rcases pushBlockers_mem _ _ _ _ hen with
            ⟨e0, he0, rfl⟩ | ⟨e0, he0, hkey, rfl⟩ | rfl
          · exact hinit _ he0
          · obtain ⟨hne, r, hr, hrpos, hrparse, hrblk⟩ := hinit e0 he0
            refine ⟨?_, r, hr, hrpos, hrparse, hrblk⟩
            intro hnil
            exact hb (List.append_eq_nil.mp hnil).2
          · exact ⟨hb, e, hsub e (List.mem_cons_self _ _), h0, rfl, hb⟩
  exact hgen s.request (fun x hx => hx) []
    (fun en hen => absurd hen (List.not_mem_nil en))

/-- C10 (witness): the theorem applied to the entry `(1, [2])` of the
derived WFG of a concrete snapshot. -/
theorem derived_wfg_entries_have_blockers_witness :
    ((some 1, [some 2]) : Option Int × List (Option Int)).2 ≠ [] ∧
    ∃ r ∈ ([("1_A", 1)] : List (String × Int)), ¬ r.2 ≤ 0 ∧
      parseIntJS (splitKey r.1).1 = some 1 ∧
      blockersFor [("2_A", 1)] (splitKey r.1).2 (some 1) ≠ [] :=
  derived_wfg_entries_have_blockers ⟨[], [], [("2_A", 1)], [("1_A", 1)]⟩
    (some 1, [some 2]) (by decide)

example : natStr 0 = "0" := by decide
example : natStr 12 = "12" := by decide
example : intStr (-3) = "-3" := by decide

example : splitKey "1_A" = ("1", some "A") := by decide
example : splitKey "1_a_b" = ("1", some "a") := by decide
example : splitKey "1A" = ("1A", none) := by decide
example : parseIntJS "12" = some 12 := by decide
example : parseIntJS "-3" = some (-3) := by decide
example : parseIntJS "2B" = some 2 := by decide
example : parseIntJS "abc" = none := by decide

end Deadlock
